import Mathlib

/-!
Verification of the idlescape-extraction script (`extraction.py`).

The script locates data literals in a bundled JavaScript file via regular
expression searches, materializes them to JSON through an external runtime,
and projects the resulting record sets.  This development gives a shallow
embedding of the pure logic of that script:

* JSON-like values, records (Python dicts, modelled as insertion-ordered
  association lists with Python's dict-assignment semantics) and record sets;
* `minimize_json` / `minimize_names_only` (the projector), where a Python
  exception (`AttributeError` on a non-dict skill entry, `KeyError` on a
  missing identifying field) is modelled as `Option.none`;
* the four per-category extraction functions, each implementing the search
  semantics (leftmost match, greedy/lazy quantifiers, backreferences,
  lookaround) of the specific regular expression used in the source;
* `fetch_data` (over an abstract network function) and the `main` control
  flow (over an abstract external-evaluator oracle).
-/

namespace Extraction

/-- A JSON-like value: either an atom (string/number/boolean, kept opaque as
a string since the projector only copies such values around) or a nested
object with insertion-ordered fields. -/
inductive Value where
  | atom : String → Value
  | obj : List (String × Value) → Value

/-- A record: a Python dict from field name to value, as an insertion-ordered
association list (keys unique in any dict produced by Python). -/
abbrev Record := List (String × Value)

/-- A materialized record set: a Python dict from record identifier to record.
The spec's data model ("a mapping from record identifier to Record") makes
every top-level value a record. -/
abbrev RecordSet := List (String × Record)

/-- Lookup of a key in an insertion-ordered association list (Python `d[k]` /
`k in d.keys()`). -/
def getKey? {α : Type} : List (String × α) → String → Option α
  | [], _ => none
  | (k', v) :: rest, k => if k' = k then some v else getKey? rest k

/-- Python dict assignment `d[k] = v`: updates the value in place if the key
is present (keeping its position in insertion order), appends otherwise. -/
def setKey {α : Type} : List (String × α) → String → α → List (String × α)
  | [], k, v => [(k, v)]
  | (k', v') :: rest, k, v =>
    if k' = k then (k, v) :: rest else (k', v') :: setKey rest k v

/-- The fixed skill-group enumeration (`skill_names`, extraction.py line 19). -/
def skill_names : List String := ["combat", "fishing", "foraging", "mining", "smithing"]

/-- The inner whitelist loop of `minimize_json` (lines 82-84 and 89-91):
`for min_key in search_keys: if min_key in src: dst[min_key] = src[min_key]`,
run against an accumulator record `acc`. -/
def copyFields (src : Record) : List String → Record → Record
  | [], acc => acc
  | k :: rest, acc =>
    match getKey? src k with
    | some v => copyFields src rest (setKey acc k v)
    | none => copyFields src rest acc

/-- The skill-group pass of `minimize_json` (lines 87-91): for each skill name
present on the record, copy whitelisted fields out of that sub-object,
overwriting earlier copies.  Python evaluates `.keys()` on the skill entry
inside the whitelist loop, so a non-object skill entry raises
`AttributeError` (modelled as `none`) exactly when the whitelist is
non-empty; for an object entry the guard is not needed, since iterating an
empty whitelist copies nothing (`copyFields sub [] acc` is `acc` by
definition). -/
def skillPass (rec : Record) (ks : List String) : Record → List String → Option Record
  | acc, [] => some acc
  | acc, s :: rest =>
    match getKey? rec s with
    | none => skillPass rec ks acc rest
    | some (Value.obj sub) => skillPass rec ks (copyFields sub ks acc) rest
    | some (Value.atom _) => if ks.isEmpty then skillPass rec ks acc rest else none

/-- Projection of one record: the body of the per-key loop of `minimize_json`
(lines 81-91). -/
def minimizeRecord (rec : Record) (ks : List String) (ss : Bool) : Option Record :=
  if ss then skillPass rec ks (copyFields rec ks []) skill_names
  else some (copyFields rec ks [])

/-- The outer loop of `minimize_json` (lines 80-91), folding over the input
record set and assigning each projected record into the output dict. -/
def minimizeGo (ks : List String) (ss : Bool) : RecordSet → RecordSet → Option RecordSet
  | acc, [] => some acc
  | acc, (k, rec) :: rest =>
    match minimizeRecord rec ks ss with
    | some mr => minimizeGo ks ss (setKey acc k mr) rest
    | none => none

/-- `minimize_json(data, search_keys, search_skills)` (extraction.py lines
78-93).  `none` models a propagating Python exception. -/
def minimize_json (data : RecordSet) (ks : List String) (ss : Bool) : Option RecordSet :=
  minimizeGo ks ss [] data

/-- The dict comprehension of `minimize_names_only` (line 97):
`{x: v[name_field] for x, v in m.items()}`.  A record lacking the field
raises `KeyError`, modelled as `none`. -/
def namesGo (nf : String) : List (String × Value) → RecordSet → Option (List (String × Value))
  | acc, [] => some acc
  | acc, (k, r) :: rest =>
    match getKey? r nf with
    | some v => namesGo nf (setKey acc k v) rest
    | none => none

/-- `minimize_names_only(data, search_skills, name_field)` (extraction.py
lines 96-97). -/
def minimize_names_only (data : RecordSet) (ss : Bool) (nf : String) :
    Option (List (String × Value)) :=
  match minimize_json data [nf] ss with
  | some m => namesGo nf [] m
  | none => none

/-- Result of one of the `extract_*` functions: a returned fragment string, a
plain `return` of Python `None` (falsy, so the category is skipped by
`main`), or a propagating exception (`AttributeError`/`TypeError` from
calling `.group`/`.groups`/`[0]` on a failed `regex.search`). -/
inductive ExtractResult where
  | fragment : String → ExtractResult
  | noFragment : ExtractResult
  | raised : ExtractResult
deriving DecidableEq

/-- Membership in the regex character class `[a-zA-Z0-9_$]`. -/
def isIdChar (c : Char) : Bool := c.isAlpha || c.isDigit || c = '_' || c = '$'

/-- Membership in the regex character class `[a-zA-Z0-9]`. -/
def isAlnumChar (c : Char) : Bool := c.isAlpha || c.isDigit

/-- Literal prefix test: `begins pat l` holds when `pat` is an initial
segment of `l`. -/
def begins : List Char → List Char → Bool
  | [], _ => true
  | _ :: _, [] => false
  | p :: ps, c :: cs => p = c && begins ps cs

/-- Greedy match of `[a-zA-Z0-9_$]+`-style classes: the maximal run of
class characters and the remaining text.  Wherever the source's patterns use
such a run followed by a character outside the class (`=`, `.`, `)`), greedy
matching with backtracking is equivalent to taking the maximal run, because
no shorter run can be followed by the required delimiter. -/
def takeRun (cls : Char → Bool) : List Char → List Char × List Char
  | [] => ([], [])
  | c :: rest =>
    if cls c then
      match takeRun cls rest with
      | (run, r) => (c :: run, r)
    else ([], c :: rest)

/-- Scan for the first (lazy, `*?`) position at which the predicate `p`
holds of the remaining suffix; returns the consumed part and that suffix. -/
def scanFirst (p : List Char → Bool) : List Char → Option (List Char × List Char)
  | [] => if p [] then some ([], []) else none
  | c :: rest =>
    if p (c :: rest) then some ([], c :: rest)
    else
      match scanFirst p rest with
      | some (b, r) => some (c :: b, r)
      | none => none

/-- Scan for the last (greedy `.+`, which backtracks from the longest
extension) position at which `tok` begins, where the consumed gap may not
contain a newline (`.` does not match `\n`). -/
def findLastGap (tok : List Char) : List Char → Option (List Char × List Char)
  | [] => if begins tok [] then some ([], []) else none
  | c :: rest =>
    if c = '\n' then
      if begins tok (c :: rest) then some ([], c :: rest) else none
    else
      match findLastGap tok rest with
      | some (g, r) => some (c :: g, r)
      | none => if begins tok (c :: rest) then some ([], c :: rest) else none

/-- The literal part `\{10\:\{name\:"Clay Pit` of the locations pattern. -/
def locLit : List Char := "\x7b10:\x7bname:\"Clay Pit".toList

/-- The backreference stop `,\1\)` of the locations pattern for a captured
variable name `v`. -/
def locStop (v : List Char) : List Char := ',' :: (v ++ [')'])

/-- Attempt of the locations pattern
`\(([a-zA-Z0-9_$]+)\=(\{10\:\{name\:"Clay Pit").+(,\1\))` at one start
position: `(`, a captured identifier (greedy; only the maximal run can be
followed by `=`), the literal anchor, a greedy non-newline gap, and the
backreference stop.  Returns `group(0)`, the whole match. -/
def tryLocAt : List Char → Option (List Char)
  | '(' :: rest =>
    match takeRun isIdChar rest with
    | ([], _) => none
    | (v, rest2) =>
      match rest2 with
      | '=' :: rest3 =>
        if begins locLit rest3 then
          match findLastGap (locStop v) (rest3.drop locLit.length) with
          | some ([], _) => none
          | some (g, _) => some ('(' :: (v ++ '=' :: (locLit ++ g ++ locStop v)))
          | none => none
        else none
      | _ => none
  | _ => none

/-- Leftmost search for the locations pattern. -/
def searchLoc : List Char → Option (List Char)
  | [] => none
  | c :: rest =>
    match tryLocAt (c :: rest) with
    | some g => some g
    | none => searchLoc rest

/-- `extract_locations` (extraction.py lines 100-104).  A failed search
leaves `locations = None` and `locations.group(0)` raises
`AttributeError`. -/
def extract_locations (data : String) : ExtractResult :=
  match searchLoc data.toList with
  | some g0 => ExtractResult.fragment ("let locations=" ++ String.mk g0 ++ "\n")
  | none => ExtractResult.raised

/-- The fixed lexical anchor of the enchantments pattern. -/
def enchAnchor : List Char := "enchantments".toList

/-- The terminating lookahead `(?=,e.exports)` of the enchantments pattern:
`,`, `e`, any character except newline (the unescaped `.`), then
`exports`. -/
def isEnchMarker : List Char → Bool
  | ',' :: 'e' :: c :: rest => c != '\n' && begins "exports".toList rest
  | _ => false

/-- Leftmost search for `(enchantments)[\s\S]*?(?=,e.exports)`: the anchor
followed by a lazy any-character run up to the first marker position; a
start with no following marker fails and the search moves on. -/
def searchEnch : List Char → Option (List Char)
  | [] => none
  | c :: rest =>
    if begins enchAnchor (c :: rest) then
      match scanFirst isEnchMarker ((c :: rest).drop enchAnchor.length) with
      | some (mid, _) => some (enchAnchor ++ mid)
      | none => searchEnch rest
    else searchEnch rest

/-- `extract_enchantments` (extraction.py lines 107-111). -/
def extract_enchantments (data : String) : ExtractResult :=
  match searchEnch data.toList with
  | some g0 => ExtractResult.fragment ("let " ++ String.mk g0 ++ "\n")
  | none => ExtractResult.raised

/-- The lookahead literal `\=\{1:\{id:1,name:"Gold` of the first items
pattern. -/
def itemLit : List Char := "=\x7b1:\x7bid:1,name:\"Gold".toList

/-- The second lookahead `(?=\=function\([a-zA-Z0-9_$]+\))` of the first
items pattern. -/
def itemLook2 : List Char → Bool
  | '=' :: rest =>
    if begins "function(".toList rest then
      match takeRun isIdChar (rest.drop 9) with
      | ([], _) => false
      | (_, ')' :: _) => true
      | _ => false
    else false
  | _ => false

/-- The lazy `.+?` stage of the first items pattern: starting after at least
one consumed non-newline character, find the earliest start of a second
captured identifier run satisfying `itemLook2`. -/
def findSecondFrom : List Char → Option (List Char)
  | [] => none
  | c :: rest =>
    match takeRun isIdChar (c :: rest) with
    | ([], _) => if c = '\n' then none else findSecondFrom rest
    | (run, r) =>
      if itemLook2 r then some run
      else if c = '\n' then none else findSecondFrom rest

/-- Attempt of the first items pattern
`([a-zA-Z0-9_$]+)(?=\=\{1:\{id:1,name:"Gold").+?([a-zA-Z0-9_$]+)(?=\=function\([a-zA-Z0-9_$]+\))`
at one start position; lookaheads consume nothing, so the lazy gap begins at
the `=` of the first lookahead.  Returns the two capture groups. -/
def tryItemsAt (l : List Char) : Option (List Char × List Char) :=
  match takeRun isIdChar l with
  | ([], _) => none
  | (run1, r1) =>
    if begins itemLit r1 then
      match r1 with
      | _ :: rest2 =>
        match findSecondFrom rest2 with
        | some run2 => some (run1, run2)
        | none => none
      | [] => none
    else none

/-- Leftmost search for the first items pattern. -/
def searchItems1 : List Char → Option (List Char × List Char)
  | [] => none
  | c :: rest =>
    match tryItemsAt (c :: rest) with
    | some p => some p
    | none => searchItems1 rest

/-- Search for the second items pattern `(?<=v1\=)([\s\S]*?)(?=,v2\=)` built
from the captured names: leftmost position whose reversed prefix ends with
`v1=` (the lookbehind) and from which the token `,v2=` occurs later; the
lazy body runs to the first such token.  `acc` is the reversed consumed
prefix.  The captured names are interpolated as literals, faithful to the
source for names drawn from `[a-zA-Z0-9_$]+` that contain no `$`. -/
def scanLB (lbRev tok : List Char) : List Char → List Char → Option (List Char)
  | acc, l =>
    match (if begins lbRev acc then scanFirst (fun s => begins tok s) l else none) with
    | some (b, _) => some b
    | none =>
      match l with
      | [] => none
      | c :: rest => scanLB lbRev tok (c :: acc) rest

/-- `extract_items` (extraction.py lines 114-132).  When the first search
fails, `item_search.groups()` raises `AttributeError`; its `else` branch
(log and `return None`) is unreachable, because the pattern has exactly two
capture groups, so `len(item_search.groups()) == 2` whenever the search
succeeds.  When the second search fails, `items.group(0)` raises. -/
def extract_items (data : String) : ExtractResult :=
  match searchItems1 data.toList with
  | none => ExtractResult.raised
  | some (v1, v2) =>
    match scanLB ('=' :: v1.reverse) (',' :: (v2 ++ ['='])) [] data.toList with
    | some content => ExtractResult.fragment ("let items = " ++ String.mk content ++ "\n")
    | none => ExtractResult.raised

/-- The lookahead literal `\{1:\{id:1,abilityName:"Auto Attack` of the
abilities pattern. -/
def abilLit : List Char := "\x7b1:\x7bid:1,abilityName:\"Auto Attack".toList

/-- The stop lookahead `(?=,[a-zA-Z0-9_$]+\=)` of the abilities pattern. -/
def isAbilStop : List Char → Bool
  | ',' :: rest =>
    match takeRun isIdChar rest with
    | ([], _) => false
    | (_, '=' :: _) => true
    | _ => false
  | _ => false

/-- The lazy `.+?` body of the abilities pattern: consume at least one
non-newline character, stopping as soon as the stop lookahead holds of the
remaining suffix; returns the consumed body (= `group(0)`, since both ends
of the pattern are zero-width lookaheads). -/
def scanLazyGap (stop : List Char → Bool) : List Char → Option (List Char)
  | [] => none
  | c :: rest =>
    if c = '\n' then none
    else if stop rest then some [c]
    else
      match scanLazyGap stop rest with
      | some g => some (c :: g)
      | none => none

/-- Leftmost search for
`(?=\{1:\{id:1,abilityName:"Auto Attack").+?(?=,[a-zA-Z0-9_$]+\=)`. -/
def searchAbil : List Char → Option (List Char)
  | [] => none
  | c :: rest =>
    if begins abilLit (c :: rest) then
      match scanLazyGap isAbilStop (c :: rest) with
      | some g => some g
      | none => searchAbil rest
    else searchAbil rest

/-- `extract_abilities` (extraction.py lines 135-139).  A failed search
makes `ability_search[0]` raise `TypeError`. -/
def extract_abilities (data : String) : ExtractResult :=
  match searchAbil data.toList with
  | some g0 => ExtractResult.fragment ("let abilities=" ++ String.mk g0 ++ "\n")
  | none => ExtractResult.raised

/-- `idlescape_site` (extraction.py line 16). -/
def idlescape_site : String := "https://www.idlescape.com"

/-- `default_main_chunk` (extraction.py line 17). -/
def default_main_chunk : String := "https://www.idlescape.com/static/js/main.eb1cd48b.chunk.js"

/-- Attempt of `main\.[a-zA-Z0-9]+\.chunk\.js` at one start position. -/
def tryMainChunkAt (l : List Char) : Option (List Char) :=
  if begins "main.".toList l then
    match takeRun isAlnumChar (l.drop 5) with
    | ([], _) => none
    | (run, r) =>
      if begins ".chunk.js".toList r then
        some ("main.".toList ++ run ++ ".chunk.js".toList)
      else none
  else none

/-- Leftmost search for the versioned bundle filename pattern. -/
def searchMainChunk : List Char → Option (List Char)
  | [] => none
  | c :: rest =>
    match tryMainChunkAt (c :: rest) with
    | some m => some m
    | none => searchMainChunk rest

/-- `fetch_data` (extraction.py lines 36-50), over an abstract network
function `net` mapping a URL to the fetched text (its failures are fatal and
uncaught, outside this model).  Python's `if not main_script` treats any
falsy argument (absent or empty) as missing; `none` models that case. -/
def fetch_data (net : String → String) (url : Option String) : String :=
  match url with
  | some u => net u
  | none =>
    match searchMainChunk (net idlescape_site).toList with
    | some fname => net (idlescape_site ++ "/static/js/" ++ String.mk fname)
    | none => net default_main_chunk

/-- The whitelist passed to `minimize_json` for the items category
(extraction.py lines 208-216). -/
def item_min_keys : List String :=
  ["id", "name", "itemImage", "tags", "enchantmentTier", "augmentationStats", "augmentationCost"]

/-- One category block of `main` (extraction.py lines 165-225), with
`--format` off.  `mat` is the external-evaluator oracle: `mat nm` is the
record set parsed from `<nm>.json` when the generated program ran and
produced it, and `none` when the node invocation failed (logged, not fatal)
so that the subsequent `json.load` raises an uncaught `FileNotFoundError`.
Returns the output files produced, in order, and whether an uncaught
exception terminated the run.  File writes themselves are modelled as
succeeding; `build_json` catches its own errors. -/
def processCategory (files : List String) (nm : String) (res : ExtractResult)
    (mat : String → Option RecordSet) (ss : Bool) (nf : String)
    (minKeys : Option (List String)) : List String × Bool :=
  match res with
  | ExtractResult.raised => (files, true)
  | ExtractResult.noFragment => (files, false)
  | ExtractResult.fragment _ =>
    match mat nm with
    | none => (files ++ [nm ++ ".js"], true)
    | some jsonData =>
      match minKeys with
      | some mk =>
        match minimize_json jsonData mk false with
        | some _ =>
          match minimize_names_only jsonData ss nf with
          | some _ =>
            (files ++ [nm ++ ".js", nm ++ ".json", nm ++ ".min.json", nm ++ ".names.json"], false)
          | none => (files ++ [nm ++ ".js", nm ++ ".json", nm ++ ".min.json"], true)
        | none => (files ++ [nm ++ ".js", nm ++ ".json"], true)
      | none =>
        match minimize_names_only jsonData ss nf with
        | some _ => (files ++ [nm ++ ".js", nm ++ ".json", nm ++ ".names.json"], false)
        | none => (files ++ [nm ++ ".js", nm ++ ".json"], true)

/-- The category sequence of `main` (extraction.py lines 165-225):
locations, enchantments, abilities, items, each fully processed before the
next; an uncaught exception aborts the remaining categories.  Only the items
category gets a `.min.json` projection; enchantments and abilities use
`search_skills=False`, and abilities uses the `abilityName` identifying
field. -/
def main_model (data : String) (mat : String → Option RecordSet) : List String × Bool :=
  let r1 := processCategory [] "locations" (extract_locations data) mat true "name" none
  if r1.2 then r1 else
  let r2 := processCategory r1.1 "enchantments" (extract_enchantments data) mat false "name" none
  if r2.2 then r2 else
  let r3 := processCategory r2.1 "abilities" (extract_abilities data) mat false "abilityName" none
  if r3.2 then r3 else
  processCategory r3.1 "items" (extract_items data) mat true "name" (some item_min_keys)

end Extraction

namespace Extraction

/-! ### Concrete inputs used to settle the claims -/

/-- The bundle text of the spec's Boundary Locator scenario. -/
def locBundleC3 : String :=
  "...(x=\x7b10:\x7bname:\"Clay Pit\"\x7d,11:\x7bname:\"Mine\"\x7d\x7d,x)..."

/-- A synthetic bundle with valid location, enchantment and ability literals
and no items anchor (the items literal is malformed/absent). -/
def bundleC7 : String :=
  "(a=\x7b10:\x7bname:\"Clay Pit\"\x7d,11:\x7bname:\"Mine\"\x7d\x7d,a)\nenchantments=\x7b1:\x7bname:\"X\"\x7d\x7d,e.exports\n\x7b1:\x7bid:1,abilityName:\"Auto Attack\",name:\"Z\"\x7d\x7d,q=1"

/-- External-evaluator oracle for `bundleC7`: node succeeds on the three
well-formed categories, yielding the record sets their literals denote. -/
def matC7 : String → Option RecordSet := fun nm =>
  if nm = "locations" then
    some [("10", [("name", Value.atom "Clay Pit")]), ("11", [("name", Value.atom "Mine")])]
  else if nm = "enchantments" then some [("1", [("name", Value.atom "X")])]
  else if nm = "abilities" then some [("1", [("abilityName", Value.atom "Z")])]
  else none

/-- A sample network: the landing page advertises a versioned bundle
filename; any other URL returns a payload tagged with that URL. -/
def netSample : String → String := fun u =>
  if u = idlescape_site then "<html src=\"/static/js/main.ab12cd.chunk.js\">" else "payload:" ++ u

end Extraction

namespace Extraction

/-! ### Association-list lemmas -/

theorem getKey?_setKey {α : Type} (r : List (String × α)) (k : String) (v : α) (f : String) :
    getKey? (setKey r k v) f = if k = f then some v else getKey? r f := by
  induction r with
  | nil => simp [setKey, getKey?]
  | cons hd tl ih =>
    obtain ⟨k', v'⟩ := hd
    by_cases h1 : k' = k
    · subst h1
      simp only [setKey, if_pos rfl, getKey?]
      split_ifs with h2 <;> simp_all
    · simp only [setKey, if_neg h1, getKey?]
      rw [ih]
      split_ifs with h2 h3 <;> simp_all

theorem mem_setKey {α : Type} (r : List (String × α)) (k : String) (v : α) (f : String) (w : α)
    (h : (f, w) ∈ setKey r k v) : (f = k ∧ w = v) ∨ (f, w) ∈ r := by
  induction r with
  | nil => simp [setKey] at h; exact Or.inl ⟨h.1, h.2⟩
  | cons hd tl ih =>
    obtain ⟨k', v'⟩ := hd
    simp only [setKey] at h
    split_ifs at h with h1
    · rcases List.mem_cons.mp h with h2 | h2
      · exact Or.inl ⟨congrArg Prod.fst h2, congrArg Prod.snd h2⟩
      · exact Or.inr (List.mem_cons_of_mem _ h2)
    · rcases List.mem_cons.mp h with h2 | h2
      · exact Or.inr (List.mem_cons.mpr (Or.inl h2))
      · rcases ih h2 with h3 | h3
        · exact Or.inl h3
        · exact Or.inr (List.mem_cons_of_mem _ h3)

theorem mem_of_getKey? {α : Type} (r : List (String × α)) (k : String) (v : α)
    (h : getKey? r k = some v) : (k, v) ∈ r := by
  induction r with
  | nil => simp [getKey?] at h
  | cons hd tl ih =>
    obtain ⟨k', v'⟩ := hd
    simp only [getKey?] at h
    split_ifs at h with h1
    · subst h1; cases h; exact List.mem_cons_self _ _
    · exact List.mem_cons_of_mem _ (ih h)

theorem getKey?_eq_none {α : Type} (r : List (String × α)) (k : String) :
    getKey? r k = none ↔ k ∉ r.map Prod.fst := by
  induction r with
  | nil => simp [getKey?]
  | cons hd tl ih =>
    obtain ⟨k', v'⟩ := hd
    simp only [getKey?, List.map_cons, List.mem_cons]
    split_ifs with h1
    · subst h1
      constructor
      · intro h; cases h
      · intro h; exact absurd (Or.inl rfl) h
    · rw [ih]
      constructor
      · intro h h2
        rcases h2 with h2 | h2
        · exact h1 h2.symm
        · exact h h2
      · intro h h2
        exact h (Or.inr h2)

theorem setKey_append {α : Type} (r : List (String × α)) (k : String) (v : α)
    (h : getKey? r k = none) : setKey r k v = r ++ [(k, v)] := by
  induction r with
  | nil => simp [setKey]
  | cons hd tl ih =>
    obtain ⟨k', v'⟩ := hd
    simp only [getKey?] at h
    split_ifs at h with h1
    simp [setKey, h1, ih h]

theorem map_fst_setKey_some {α : Type} (r : List (String × α)) (k : String) (v : α)
    (h : (getKey? r k).isSome) : (setKey r k v).map Prod.fst = r.map Prod.fst := by
  induction r with
  | nil => simp [getKey?] at h
  | cons hd tl ih =>
    obtain ⟨k', v'⟩ := hd
    simp only [getKey?] at h
    by_cases h1 : k' = k
    · simp [setKey, h1]
    · simp only [setKey, if_neg h1, List.map_cons]
      rw [ih (by simpa [h1] using h)]

theorem length_setKey_le {α : Type} (r : List (String × α)) (k : String) (v : α) :
    (setKey r k v).length ≤ r.length + 1 := by
  induction r with
  | nil => simp [setKey]
  | cons hd tl ih =>
    obtain ⟨k', v'⟩ := hd
    simp only [setKey]
    split_ifs with h1
    · simp
    · simpa using Nat.succ_le_succ ih

theorem nodup_map_fst_setKey {α : Type} (r : List (String × α)) (k : String) (v : α)
    (h : (r.map Prod.fst).Nodup) : ((setKey r k v).map Prod.fst).Nodup := by
  cases hk : getKey? r k with
  | some w =>
    rw [map_fst_setKey_some r k v (by simp [hk])]
    exact h
  | none =>
    rw [setKey_append r k v hk]
    simp only [List.map_append, List.map_cons, List.map_nil]
    rw [List.nodup_append]
    refine ⟨h, List.nodup_singleton _, ?_⟩
    intro a ha
    simp only [List.mem_singleton]
    intro hb
    exact (getKey?_eq_none r k).mp hk (hb ▸ ha)

end Extraction

namespace Extraction

/-! ### Projector lemmas -/

theorem mem_copyFields (src : Record) (f : String) (v : Value) :
    ∀ (ks : List String) (acc : Record),
    (f, v) ∈ copyFields src ks acc → f ∈ ks ∨ (f, v) ∈ acc := by
  intro ks
  induction ks with
  | nil => intro acc h; exact Or.inr h
  | cons k rest ih =>
    intro acc h
    cases hk : getKey? src k with
    | some w =>
      simp only [copyFields, hk] at h
      rcases ih (setKey acc k w) h with h2 | h2
      · exact Or.inl (List.mem_cons_of_mem _ h2)
      · rcases mem_setKey acc k w f v h2 with h3 | h3
        · exact Or.inl (h3.1 ▸ List.mem_cons_self _ _)
        · exact Or.inr h3
    | none =>
      simp only [copyFields, hk] at h
      rcases ih acc h with h2 | h2
      · exact Or.inl (List.mem_cons_of_mem _ h2)
      · exact Or.inr h2

theorem getKey?_copyFields (src : Record) (f : String) :
    ∀ (ks : List String) (acc : Record),
    getKey? (copyFields src ks acc) f =
      if f ∈ ks ∧ (getKey? src f).isSome then getKey? src f else getKey? acc f := by
  intro ks
  induction ks with
  | nil => intro acc; simp [copyFields]
  | cons k rest ih =>
    intro acc
    cases hk : getKey? src k with
    | some w =>
      simp only [copyFields, hk]
      rw [ih, getKey?_setKey]
      by_cases hf : f ∈ rest ∧ (getKey? src f).isSome
      · rw [if_pos hf, if_pos ⟨List.mem_cons_of_mem _ hf.1, hf.2⟩]
      · rw [if_neg hf]
        by_cases hkf : k = f
        · subst hkf
          rw [if_pos rfl, if_pos ⟨List.mem_cons_self _ _, by simp [hk]⟩, hk]
        · rw [if_neg hkf]
          by_cases hf2 : f ∈ k :: rest ∧ (getKey? src f).isSome
          · rcases List.mem_cons.mp hf2.1 with h3 | h3
            · exact absurd h3.symm hkf
            · exact absurd ⟨h3, hf2.2⟩ hf
          · rw [if_neg hf2]
    | none =>
      simp only [copyFields, hk]
      rw [ih]
      by_cases hf : f ∈ rest ∧ (getKey? src f).isSome
      · rw [if_pos hf, if_pos ⟨List.mem_cons_of_mem _ hf.1, hf.2⟩]
      · rw [if_neg hf]
        by_cases hf2 : f ∈ k :: rest ∧ (getKey? src f).isSome
        · rcases List.mem_cons.mp hf2.1 with h3 | h3
          · exact absurd hf2.2 (by simp [h3, hk])
          · exact absurd ⟨h3, hf2.2⟩ hf
        · rw [if_neg hf2]

theorem copyFields_congr (src src' : Record) :
    ∀ (ks : List String) (acc : Record),
    (∀ k, k ∈ ks → getKey? src k = getKey? src' k) →
    copyFields src ks acc = copyFields src' ks acc := by
  intro ks
  induction ks with
  | nil => intro acc _; rfl
  | cons k rest ih =>
    intro acc h
    have hk := h k (List.mem_cons_self _ _)
    cases hk2 : getKey? src' k with
    | some w =>
      simp only [copyFields, hk.trans hk2, hk2]
      exact ih _ (fun j hj => h j (List.mem_cons_of_mem _ hj))
    | none =>
      simp only [copyFields, hk.trans hk2, hk2]
      exact ih _ (fun j hj => h j (List.mem_cons_of_mem _ hj))

theorem copyFields_of_disjoint (src : Record) :
    ∀ (ks : List String) (acc : Record),
    (∀ k, k ∈ ks → getKey? src k = none) →
    copyFields src ks acc = acc := by
  intro ks
  induction ks with
  | nil => intro acc _; rfl
  | cons k rest ih =>
    intro acc h
    simp only [copyFields, h k (List.mem_cons_self _ _)]
    exact ih acc (fun j hj => h j (List.mem_cons_of_mem _ hj))

theorem mem_skillPass (rec : Record) (ks : List String) (f : String) (v : Value) :
    ∀ (sl : List String) (acc out : Record),
    skillPass rec ks acc sl = some out → (f, v) ∈ out → f ∈ ks ∨ (f, v) ∈ acc := by
  intro sl
  induction sl with
  | nil =>
    intro acc out h hm
    simp only [skillPass] at h
    cases h
    exact Or.inr hm
  | cons s rest ih =>
    intro acc out h hm
    cases hs : getKey? rec s with
    | none =>
      simp only [skillPass, hs] at h
      exact ih acc out h hm
    | some v0 =>
      cases v0 with
      | obj sub =>
        simp only [skillPass, hs] at h
        rcases ih _ out h hm with h2 | h2
        · exact Or.inl h2
        · rcases mem_copyFields sub f v ks acc h2 with h3 | h3
          · exact Or.inl h3
          · exact Or.inr h3
      | atom a =>
        simp only [skillPass, hs] at h
        by_cases he : ks.isEmpty
        · rw [if_pos he] at h
          exact ih acc out h hm
        · rw [if_neg he] at h
          exact Option.noConfusion h

theorem skillPass_keep (rec : Record) (ks : List String) :
    ∀ (sl : List String) (acc out : Record),
    (∀ s sub, s ∈ sl → getKey? rec s = some (Value.obj sub) →
      ∀ k, k ∈ ks → getKey? sub k = none) →
    skillPass rec ks acc sl = some out → out = acc := by
  intro sl
  induction sl with
  | nil =>
    intro acc out _ h
    simp only [skillPass] at h
    cases h
    rfl
  | cons s rest ih =>
    intro acc out hsub h
    cases hs : getKey? rec s with
    | none =>
      simp only [skillPass, hs] at h
      exact ih acc out (fun s' sub hs' => hsub s' sub (List.mem_cons_of_mem _ hs')) h
    | some v0 =>
      cases v0 with
      | obj sub =>
        have hcf : copyFields sub ks acc = acc :=
          copyFields_of_disjoint sub ks acc (hsub s sub (List.mem_cons_self _ _) hs)
        simp only [skillPass, hs, hcf] at h
        exact ih acc out (fun s' sub' hs' => hsub s' sub' (List.mem_cons_of_mem _ hs')) h
      | atom a =>
        simp only [skillPass, hs] at h
        by_cases he : ks.isEmpty
        · rw [if_pos he] at h
          exact ih acc out (fun s' sub' hs' => hsub s' sub' (List.mem_cons_of_mem _ hs')) h
        · rw [if_neg he] at h
          exact Option.noConfusion h

end Extraction

namespace Extraction

theorem minimizeGo_mem (ks : List String) (ss : Bool) :
    ∀ (data acc out : RecordSet), minimizeGo ks ss acc data = some out →
    ∀ k r, (k, r) ∈ out → (k, r) ∈ acc ∨ ∃ rec, minimizeRecord rec ks ss = some r := by
  intro data
  induction data with
  | nil =>
    intro acc out h k r hm
    simp only [minimizeGo] at h
    cases h
    exact Or.inl hm
  | cons hd tl ih =>
    obtain ⟨k0, rec0⟩ := hd
    intro acc out h k r hm
    cases hr : minimizeRecord rec0 ks ss with
    | none =>
      simp only [minimizeGo, hr] at h
      exact Option.noConfusion h
    | some mr =>
      simp only [minimizeGo, hr] at h
      rcases ih _ out h k r hm with h2 | h2
      · rcases mem_setKey acc k0 mr k r h2 with h3 | h3
        · exact Or.inr ⟨rec0, by rw [hr, h3.2]⟩
        · exact Or.inl h3
      · exact Or.inr h2

theorem map_fst_minimizeGo (ks : List String) (ss : Bool) :
    ∀ (data acc out : RecordSet),
    (∀ k, k ∈ data.map Prod.fst → getKey? acc k = none) →
    (data.map Prod.fst).Nodup →
    minimizeGo ks ss acc data = some out →
    out.map Prod.fst = acc.map Prod.fst ++ data.map Prod.fst := by
  intro data
  induction data with
  | nil =>
    intro acc out _ _ h
    simp only [minimizeGo] at h
    cases h
    simp
  | cons hd tl ih =>
    obtain ⟨k0, rec0⟩ := hd
    intro acc out hdis hnd h
    cases hr : minimizeRecord rec0 ks ss with
    | none =>
      simp only [minimizeGo, hr] at h
      exact Option.noConfusion h
    | some mr =>
      simp only [minimizeGo, hr] at h
      have hk0 : getKey? acc k0 = none := hdis k0 (by simp)
      have hnd2 := List.nodup_cons.mp (by rw [List.map_cons] at hnd; exact hnd)
      have hdis2 : ∀ k, k ∈ tl.map Prod.fst → getKey? (setKey acc k0 mr) k = none := by
        intro k hk
        rw [getKey?_setKey]
        have hne : k0 ≠ k := fun he => hnd2.1 (he ▸ hk)
        rw [if_neg hne]
        exact hdis k (by simp [hk])
      have hrec := ih (setKey acc k0 mr) out hdis2 hnd2.2 h
      rw [setKey_append acc k0 mr hk0] at hrec
      simpa using hrec

theorem nodup_minimizeGo (ks : List String) (ss : Bool) :
    ∀ (data acc out : RecordSet), (acc.map Prod.fst).Nodup →
    minimizeGo ks ss acc data = some out → (out.map Prod.fst).Nodup := by
  intro data
  induction data with
  | nil =>
    intro acc out hnd h
    simp only [minimizeGo] at h
    cases h
    exact hnd
  | cons hd tl ih =>
    obtain ⟨k0, rec0⟩ := hd
    intro acc out hnd h
    cases hr : minimizeRecord rec0 ks ss with
    | none =>
      simp only [minimizeGo, hr] at h
      exact Option.noConfusion h
    | some mr =>
      simp only [minimizeGo, hr] at h
      exact ih _ out (nodup_map_fst_setKey acc k0 mr hnd) h

theorem getKey?_minimizeGo_not_mem (ks : List String) (ss : Bool) :
    ∀ (data acc out : RecordSet) (k : String), k ∉ data.map Prod.fst →
    minimizeGo ks ss acc data = some out → getKey? out k = getKey? acc k := by
  intro data
  induction data with
  | nil =>
    intro acc out k _ h
    simp only [minimizeGo] at h
    cases h
    rfl
  | cons hd tl ih =>
    obtain ⟨k0, rec0⟩ := hd
    intro acc out k hk h
    cases hr : minimizeRecord rec0 ks ss with
    | none =>
      simp only [minimizeGo, hr] at h
      exact Option.noConfusion h
    | some mr =>
      simp only [minimizeGo, hr] at h
      have h2 := ih _ out k (fun hm => hk (by simp [hm])) h
      rw [h2, getKey?_setKey, if_neg (fun he => hk (by simp [he]))]

theorem getKey?_minimizeGo_mem (ks : List String) (ss : Bool) :
    ∀ (data acc out : RecordSet) (k : String) (rec : Record),
    (data.map Prod.fst).Nodup → (k, rec) ∈ data →
    minimizeGo ks ss acc data = some out →
    ∃ r, minimizeRecord rec ks ss = some r ∧ getKey? out k = some r := by
  intro data
  induction data with
  | nil =>
    intro acc out k rec _ hm _
    cases hm
  | cons hd tl ih =>
    obtain ⟨k0, rec0⟩ := hd
    intro acc out k rec hnd hm h
    have hnd2 := List.nodup_cons.mp (by rw [List.map_cons] at hnd; exact hnd)
    cases hr : minimizeRecord rec0 ks ss with
    | none =>
      simp only [minimizeGo, hr] at h
      exact Option.noConfusion h
    | some mr =>
      simp only [minimizeGo, hr] at h
      rcases List.mem_cons.mp hm with h2 | h2
      · have hk : k = k0 := congrArg Prod.fst h2
        have hrec : rec = rec0 := congrArg Prod.snd h2
        subst hk
        subst hrec
        refine ⟨mr, hr, ?_⟩
        have h3 := getKey?_minimizeGo_not_mem ks ss tl _ out k hnd2.1 h
        rw [h3, getKey?_setKey, if_pos rfl]
      · exact ih _ out k rec hnd2.2 h2 h

theorem minimizeGo_fixpoint (ks : List String) (ss : Bool) :
    ∀ (data acc : RecordSet),
    (∀ p, p ∈ data → minimizeRecord p.2 ks ss = some p.2) →
    (∀ k, k ∈ data.map Prod.fst → getKey? acc k = none) →
    (data.map Prod.fst).Nodup →
    minimizeGo ks ss acc data = some (acc ++ data) := by
  intro data
  induction data with
  | nil => intro acc _ _ _; simp [minimizeGo]
  | cons hd tl ih =>
    obtain ⟨k0, rec0⟩ := hd
    intro acc hfix hdis hnd
    have hnd2 := List.nodup_cons.mp (by rw [List.map_cons] at hnd; exact hnd)
    have hr : minimizeRecord rec0 ks ss = some rec0 := hfix (k0, rec0) (List.mem_cons_self _ _)
    simp only [minimizeGo, hr]
    have hdis2 : ∀ k, k ∈ tl.map Prod.fst → getKey? (setKey acc k0 rec0) k = none := by
      intro k hk
      rw [getKey?_setKey]
      have hne : k0 ≠ k := fun he => hnd2.1 (he ▸ hk)
      rw [if_neg hne]
      exact hdis k (by simp [hk])
    have hstep := ih (setKey acc k0 rec0) (fun p hp => hfix p (List.mem_cons_of_mem _ hp))
      hdis2 hnd2.2
    rw [hstep, setKey_append acc k0 rec0 (hdis k0 (by simp))]
    simp

theorem length_minimizeGo_le (ks : List String) (ss : Bool) :
    ∀ (data acc out : RecordSet), minimizeGo ks ss acc data = some out →
    out.length ≤ acc.length + data.length := by
  intro data
  induction data with
  | nil =>
    intro acc out h
    simp only [minimizeGo] at h
    cases h
    simp
  | cons hd tl ih =>
    obtain ⟨k0, rec0⟩ := hd
    intro acc out h
    cases hr : minimizeRecord rec0 ks ss with
    | none =>
      simp only [minimizeGo, hr] at h
      exact Option.noConfusion h
    | some mr =>
      simp only [minimizeGo, hr] at h
      have h2 := ih _ out h
      have h3 := length_setKey_le acc k0 mr
      simp only [List.length_cons]
      omega

theorem map_fst_namesGo (nf : String) :
    ∀ (m : RecordSet) (acc out : List (String × Value)),
    (∀ k, k ∈ m.map Prod.fst → getKey? acc k = none) →
    (m.map Prod.fst).Nodup →
    namesGo nf acc m = some out →
    out.map Prod.fst = acc.map Prod.fst ++ m.map Prod.fst := by
  intro m
  induction m with
  | nil =>
    intro acc out _ _ h
    simp only [namesGo] at h
    cases h
    simp
  | cons hd tl ih =>
    obtain ⟨k0, rec0⟩ := hd
    intro acc out hdis hnd h
    cases hr : getKey? rec0 nf with
    | none =>
      simp only [namesGo, hr] at h
      exact Option.noConfusion h
    | some v =>
      simp only [namesGo, hr] at h
      have hk0 : getKey? acc k0 = none := hdis k0 (by simp)
      have hnd2 := List.nodup_cons.mp (by rw [List.map_cons] at hnd; exact hnd)
      have hdis2 : ∀ k, k ∈ tl.map Prod.fst → getKey? (setKey acc k0 v) k = none := by
        intro k hk
        rw [getKey?_setKey]
        have hne : k0 ≠ k := fun he => hnd2.1 (he ▸ hk)
        rw [if_neg hne]
        exact hdis k (by simp [hk])
      have hrec := ih (setKey acc k0 v) out hdis2 hnd2.2 h
      rw [setKey_append acc k0 v hk0] at hrec
      simpa using hrec

theorem length_namesGo_le (nf : String) :
    ∀ (m : RecordSet) (acc out : List (String × Value)),
    namesGo nf acc m = some out → out.length ≤ acc.length + m.length := by
  intro m
  induction m with
  | nil =>
    intro acc out h
    simp only [namesGo] at h
    cases h
    simp
  | cons hd tl ih =>
    obtain ⟨k0, rec0⟩ := hd
    intro acc out h
    cases hr : getKey? rec0 nf with
    | none =>
      simp only [namesGo, hr] at h
      exact Option.noConfusion h
    | some v =>
      simp only [namesGo, hr] at h
      have h2 := ih _ out h
      have h3 := length_setKey_le acc k0 v
      simp only [List.length_cons]
      omega

end Extraction

namespace Extraction

/-! ### Search lemmas -/

theorem begins_eq (pat : List Char) : ∀ (l : List Char), begins pat l = true →
    l = pat ++ l.drop pat.length := by
  induction pat with
  | nil => intro l _; simp
  | cons p ps ih =>
    intro l h
    cases l with
    | nil => simp [begins] at h
    | cons c cs =>
      simp only [begins, Bool.and_eq_true, decide_eq_true_eq] at h
      obtain ⟨h1, h2⟩ := h
      subst h1
      simp only [List.cons_append, List.length_cons, List.drop_succ_cons, List.cons.injEq,
        true_and]
      exact ih cs h2

theorem scanFirst_spec (p : List Char → Bool) :
    ∀ (l b r : List Char), scanFirst p l = some (b, r) →
    l = b ++ r ∧ p r = true ∧ ∀ m1 m2, b = m1 ++ m2 → m2 ≠ [] → p (m2 ++ r) = false := by
  intro l
  induction l with
  | nil =>
    intro b r h
    simp only [scanFirst] at h
    split_ifs at h with h1
    · cases h
      refine ⟨rfl, h1, ?_⟩
      intro m1 m2 hb hne
      rcases List.append_eq_nil.mp hb.symm with ⟨_, h2⟩
      exact absurd h2 hne
  | cons c rest ih =>
    intro b r h
    simp only [scanFirst] at h
    split_ifs at h with h1
    · cases h
      refine ⟨rfl, h1, ?_⟩
      intro m1 m2 hb hne
      rcases List.append_eq_nil.mp hb.symm with ⟨_, h2⟩
      exact absurd h2 hne
    · cases hs : scanFirst p rest with
      | none =>
        rw [hs] at h
        exact Option.noConfusion h
      | some pr =>
        obtain ⟨b2, r2⟩ := pr
        rw [hs] at h
        cases h
        obtain ⟨he, hp, hmin⟩ := ih b2 r hs
        refine ⟨by rw [List.cons_append, he], hp, ?_⟩
        intro m1 m2 hb hne
        cases m1 with
        | nil =>
          simp only [List.nil_append] at hb
          rw [← hb, List.cons_append, ← he]
          cases hpc : p (c :: rest) with
          | true => exact absurd hpc h1
          | false => rfl
        | cons x m1' =>
          simp only [List.cons_append, List.cons.injEq] at hb
          exact hmin m1' m2 hb.2 hne

theorem searchEnch_spec :
    ∀ (l g : List Char), searchEnch l = some g →
    ∃ pre mid r, l = pre ++ (enchAnchor ++ (mid ++ r)) ∧
      g = enchAnchor ++ mid ∧ isEnchMarker r = true ∧
      ∀ m1 m2, mid = m1 ++ m2 → m2 ≠ [] → isEnchMarker (m2 ++ r) = false := by
  intro l
  induction l with
  | nil => intro g h; exact Option.noConfusion h
  | cons c rest ih =>
    intro g h
    simp only [searchEnch] at h
    split_ifs at h with h1
    · cases hs : scanFirst isEnchMarker ((c :: rest).drop enchAnchor.length) with
      | some pr =>
        obtain ⟨mid, r⟩ := pr
        rw [hs] at h
        cases h
        obtain ⟨he, hp, hmin⟩ := scanFirst_spec isEnchMarker _ mid r hs
        refine ⟨[], mid, r, ?_, rfl, hp, hmin⟩
        rw [List.nil_append, ← he]
        exact begins_eq enchAnchor (c :: rest) h1
      | none =>
        rw [hs] at h
        obtain ⟨pre, mid, r, hl, hg, hp, hmin⟩ := ih g h
        exact ⟨c :: pre, mid, r, by rw [List.cons_append, ← hl], hg, hp, hmin⟩
    · obtain ⟨pre, mid, r, hl, hg, hp, hmin⟩ := ih g h
      exact ⟨c :: pre, mid, r, by rw [List.cons_append, ← hl], hg, hp, hmin⟩

end Extraction

namespace Extraction

/-! ### Claim theorems -/

/-- C4: `minimize_json` with the skill-group flag processes groups in the
fixed order combat, fishing, foraging, mining, smithing, and a whitelisted
field found in a later group overwrites the same-named field copied from the
top level or from an earlier group; concretely, projecting
`{1: {combat: {name: "A"}, mining: {name: "B"}}}` with whitelist `["name"]`
yields `{1: {name: "B"}}`. -/
theorem claim4_skill_group_order :
    skill_names = ["combat", "fishing", "foraging", "mining", "smithing"] ∧
    (∀ a b : Value,
      minimizeRecord [("combat", Value.obj [("name", a)]), ("mining", Value.obj [("name", b)])]
        ["name"] true = some [("name", b)]) ∧
    (∀ c a b : Value,
      minimizeRecord
        [("name", c), ("combat", Value.obj [("name", a)]), ("mining", Value.obj [("name", b)])]
        ["name"] true = some [("name", b)]) ∧
    minimize_json
      [("1", [("combat", Value.obj [("name", Value.atom "A")]),
              ("mining", Value.obj [("name", Value.atom "B")])])] ["name"] true =
      some [("1", [("name", Value.atom "B")])] :=
  ⟨rfl, fun _ _ => rfl, fun _ _ _ => rfl, rfl⟩

/-- C6: every field name appearing in any record of a produced output of
`minimize_json` is a member of the whitelist, for any record set, whitelist
and flag. -/
theorem claim6_whitelist_only :
    ∀ (data : RecordSet) (ks : List String) (ss : Bool) (out : RecordSet),
    minimize_json data ks ss = some out →
    ∀ k r, (k, r) ∈ out → ∀ f v, (f, v) ∈ r → f ∈ ks := by
  intro data ks ss out h k r hkr f v hfv
  rcases minimizeGo_mem ks ss data [] out h k r hkr with h2 | h2
  · exact absurd h2 (List.not_mem_nil _)
  · obtain ⟨rec, hrec⟩ := h2
    cases ss with
    | false =>
      simp only [minimizeRecord, Bool.false_eq_true, if_false, Option.some.injEq] at hrec
      rcases mem_copyFields rec f v ks [] (hrec ▸ hfv) with h3 | h3
      · exact h3
      · exact absurd h3 (List.not_mem_nil _)
    | true =>
      simp only [minimizeRecord, if_true] at hrec
      rcases mem_skillPass rec ks f v skill_names (copyFields rec ks []) r hrec hfv with h3 | h3
      · exact h3
      · rcases mem_copyFields rec f v ks [] h3 with h4 | h4
        · exact h4
        · exact absurd h4 (List.not_mem_nil _)

/-- Witness for C6 at a concrete input. -/
theorem claim6_whitelist_only_witness : "name" ∈ ["name"] :=
  claim6_whitelist_only [("1", [("name", Value.atom "A"), ("x", Value.atom "B")])] ["name"] true
    [("1", [("name", Value.atom "A")])] (by rfl) "1" [("name", Value.atom "A")] (by simp)
    "name" (Value.atom "A") (by simp)

/-- C2, counterexample: on the record set `{1: {}}`, whose single record
lacks the identifying field, `minimize_names_only` raises `KeyError`
(modelled `none`) instead of returning the empty mapping the claim
requires. -/
theorem claim2_counterexample :
    minimize_names_only [("1", [])] true "name" = none ∧
    minimize_names_only [("1", [])] true "name" ≠ some [] := by
  have h1 : minimize_names_only [("1", [])] true "name" = none := rfl
  exact ⟨h1, fun hc => Option.noConfusion (h1 ▸ hc)⟩

/-- C2 as amended: when `minimize_names_only` returns at all, no record has
been omitted — the output's record count is at most the input's, and for a
duplicate-free input it is exactly the input's count with the same
identifiers in order; a record lacking the identifying field instead makes
the call raise `KeyError`, so there is no run in which such a record is
silently dropped. -/
theorem claim2_amended_names_counts :
    ∀ (data : RecordSet) (ss : Bool) (nf : String) (out : List (String × Value)),
    minimize_names_only data ss nf = some out →
    out.length ≤ data.length ∧
    ((data.map Prod.fst).Nodup → out.map Prod.fst = data.map Prod.fst) := by
  intro data ss nf out h
  unfold minimize_names_only at h
  cases hm : minimize_json data [nf] ss with
  | none => rw [hm] at h; exact Option.noConfusion h
  | some m =>
    rw [hm] at h
    unfold minimize_json at hm
    constructor
    · have h1 := length_namesGo_le nf m [] out h
      have h2 := length_minimizeGo_le [nf] ss data [] m hm
      simpa using le_trans (by simpa using h1) (by simpa using h2)
    · intro hnd
      have hm2 := map_fst_minimizeGo [nf] ss data [] m (fun k _ => rfl) hnd hm
      simp only [List.map_nil, List.nil_append] at hm2
      have h3 := map_fst_namesGo nf m [] out (fun k _ => rfl) (hm2 ▸ hnd) h
      simp only [List.map_nil, List.nil_append] at h3
      rw [h3, hm2]

/-- Witness for C2 as amended at a concrete input. -/
theorem claim2_amended_names_counts_witness :
    ([("1", Value.atom "A")] : List (String × Value)).length ≤
      ([("1", [("name", Value.atom "A")])] : RecordSet).length ∧
    ((([("1", [("name", Value.atom "A")])] : RecordSet).map Prod.fst).Nodup →
      ([("1", Value.atom "A")] : List (String × Value)).map Prod.fst =
        ([("1", [("name", Value.atom "A")])] : RecordSet).map Prod.fst) :=
  claim2_amended_names_counts [("1", [("name", Value.atom "A")])] false "name"
    [("1", Value.atom "A")] (by rfl)

end Extraction

namespace Extraction

theorem copyFields_idem (rec : Record) (ks : List String) :
    copyFields (copyFields rec ks []) ks [] = copyFields rec ks [] := by
  apply copyFields_congr
  intro k hk
  rw [getKey?_copyFields]
  by_cases hs : (getKey? rec k).isSome
  · rw [if_pos ⟨hk, hs⟩]
  · rw [if_neg (fun hc => hs hc.2)]
    cases hgk : getKey? rec k with
    | none => rfl
    | some w => exact absurd (by simp [hgk]) hs

/-- C10, counterexample: with the skill-group flag set, a record none of
whose (top-level) fields is whitelisted need not map to an empty record —
whitelisted fields inside a skill sub-object are lifted into it. -/
theorem claim10_counterexample :
    minimize_json [("1", [("combat", Value.obj [("name", Value.atom "A")])])] ["name"] true =
      some [("1", [("name", Value.atom "A")])] ∧
    "combat" ∉ (["name"] : List String) ∧
    ([("name", Value.atom "A")] : Record) ≠ [] := by
  refine ⟨rfl, by decide, by simp⟩

/-- C10 as amended: whenever `minimize_json` returns, the output has exactly
the input's record identifiers, in order (no record dropped); and a record
with no whitelisted top-level field — and, when the flag is set, no
whitelisted field inside any of its skill-group sub-objects — maps to an
empty record rather than being omitted. -/
theorem claim10_amended_keys :
    ∀ (data : RecordSet) (ks : List String) (ss : Bool) (out : RecordSet),
    minimize_json data ks ss = some out → (data.map Prod.fst).Nodup →
    out.map Prod.fst = data.map Prod.fst ∧
    ∀ k rec, (k, rec) ∈ data →
      (∀ f v, (f, v) ∈ rec → f ∉ ks) →
      (ss = true → ∀ s sub, s ∈ skill_names → getKey? rec s = some (Value.obj sub) →
        ∀ f v, (f, v) ∈ sub → f ∉ ks) →
      getKey? out k = some [] := by
  intro data ks ss out h hnd
  constructor
  · have hm := map_fst_minimizeGo ks ss data [] out (fun k _ => rfl) hnd h
    simpa using hm
  · intro k rec hmem hnw hsw
    obtain ⟨r, hrec, hout⟩ := getKey?_minimizeGo_mem ks ss data [] out k rec hnd hmem h
    have hdisj : ∀ j, j ∈ ks → getKey? rec j = none := by
      intro j hj
      cases hg : getKey? rec j with
      | none => rfl
      | some w => exact absurd hj (hnw j w (mem_of_getKey? rec j w hg))
    have hcf : copyFields rec ks [] = [] := copyFields_of_disjoint rec ks [] hdisj
    cases ss with
    | false =>
      simp only [minimizeRecord, Bool.false_eq_true, if_false, Option.some.injEq] at hrec
      rw [hout, ← hrec, hcf]
    | true =>
      simp only [minimizeRecord, if_true] at hrec
      have hsub : ∀ s sub, s ∈ skill_names → getKey? rec s = some (Value.obj sub) →
          ∀ j, j ∈ ks → getKey? sub j = none := by
        intro s sub hs hg j hj
        cases hg2 : getKey? sub j with
        | none => rfl
        | some w => exact absurd hj (hsw rfl s sub hs hg j w (mem_of_getKey? sub j w hg2))
      have hkeep := skillPass_keep rec ks skill_names (copyFields rec ks []) r hsub hrec
      rw [hout, hkeep, hcf]

/-- Witness for C10 as amended at a concrete input. -/
theorem claim10_amended_keys_witness :
    ([("1", ([] : Record))] : RecordSet).map Prod.fst =
      ([("1", [("x", Value.atom "B")])] : RecordSet).map Prod.fst ∧
    ∀ k rec, (k, rec) ∈ ([("1", [("x", Value.atom "B")])] : RecordSet) →
      (∀ f v, (f, v) ∈ rec → f ∉ (["name"] : List String)) →
      (true = true → ∀ s sub, s ∈ skill_names → getKey? rec s = some (Value.obj sub) →
        ∀ f v, (f, v) ∈ sub → f ∉ (["name"] : List String)) →
      getKey? [("1", ([] : Record))] k = some [] :=
  claim10_amended_keys [("1", [("x", Value.atom "B")])] ["name"] true [("1", [])]
    (by rfl) (by simp)

/-- C5, counterexample: with the skill-group flag set, `minimize_json` is
not idempotent — re-projecting its own output can overwrite a field again
from a lifted skill sub-object, changing the result. -/
theorem claim5_counterexample :
    minimize_json
      [("1", [("mining", Value.obj [("mining", Value.obj [("name", Value.atom "C")]),
                                    ("name", Value.atom "B")])])]
      ["mining", "name"] true =
      some [("1", [("mining", Value.obj [("name", Value.atom "C")]),
                   ("name", Value.atom "B")])] ∧
    minimize_json
      [("1", [("mining", Value.obj [("name", Value.atom "C")]), ("name", Value.atom "B")])]
      ["mining", "name"] true =
      some [("1", [("mining", Value.obj [("name", Value.atom "C")]),
                   ("name", Value.atom "C")])] ∧
    ¬ minimize_json
      [("1", [("mining", Value.obj [("name", Value.atom "C")]), ("name", Value.atom "B")])]
      ["mining", "name"] true =
      some [("1", [("mining", Value.obj [("name", Value.atom "C")]),
                   ("name", Value.atom "B")])] := by
  refine ⟨rfl, rfl, ?_⟩
  have h1 : minimize_json
      [("1", [("mining", Value.obj [("name", Value.atom "C")]), ("name", Value.atom "B")])]
      ["mining", "name"] true =
      some [("1", [("mining", Value.obj [("name", Value.atom "C")]),
                   ("name", Value.atom "C")])] := rfl
  intro hc
  have h2 := h1 ▸ hc
  simp at h2

/-- C5 as amended: `minimize_json` is idempotent when the skill-group flag
is false — re-projecting a produced output with the same whitelist returns
that output unchanged.  (With the flag true, idempotence fails; see the
counterexample.) -/
theorem claim5_amended_idempotent :
    ∀ (data : RecordSet) (ks : List String) (out : RecordSet),
    minimize_json data ks false = some out → minimize_json out ks false = some out := by
  intro data ks out h
  unfold minimize_json at h ⊢
  have hnd : (out.map Prod.fst).Nodup := nodup_minimizeGo ks false data [] out (by simp) h
  have hfix : ∀ p, p ∈ out → minimizeRecord p.2 ks false = some p.2 := by
    intro p hp
    obtain ⟨k, r⟩ := p
    rcases minimizeGo_mem ks false data [] out h k r hp with h2 | h2
    · exact absurd h2 (List.not_mem_nil _)
    · obtain ⟨rec, hrec⟩ := h2
      simp only [minimizeRecord, Bool.false_eq_true, if_false, Option.some.injEq] at hrec ⊢
      rw [← hrec]
      exact copyFields_idem rec ks
  have hres := minimizeGo_fixpoint ks false out [] hfix (fun k _ => rfl) hnd
  simpa using hres

/-- Witness for C5 as amended at a concrete input. -/
theorem claim5_amended_idempotent_witness :
    minimize_json [("1", [("name", Value.atom "A")])] ["name"] false =
      some [("1", [("name", Value.atom "A")])] :=
  claim5_amended_idempotent [("1", [("name", Value.atom "A"), ("x", Value.atom "B")])]
    ["name"] [("1", [("name", Value.atom "A")])] (by rfl)

end Extraction

namespace Extraction

/-- C1: on a bundle text in which no category's anchor matches, every
extraction function raises (`AttributeError`/`TypeError` on the failed
search result) instead of returning no fragment, and the modelled run
aborts at the first category with no files produced, instead of skipping
the category and proceeding. -/
theorem claim1_missing_anchor_raises :
    extract_locations "no anchors here" = ExtractResult.raised ∧
    extract_enchantments "no anchors here" = ExtractResult.raised ∧
    extract_items "no anchors here" = ExtractResult.raised ∧
    extract_abilities "no anchors here" = ExtractResult.raised ∧
    main_model "no anchors here" (fun _ => none) = ([], true) := by
  refine ⟨by decide, by decide, by decide, by decide, by decide⟩

/-- C3, counterexample: on the spec's Boundary Locator scenario text, the
locations locator returns the regex's whole match — including the opening
parenthesis and the trailing `,x)` — not the span from `x=` that excludes
them. -/
theorem claim3_counterexample :
    extract_locations locBundleC3 =
      ExtractResult.fragment
        "let locations=(x=\x7b10:\x7bname:\"Clay Pit\"\x7d,11:\x7bname:\"Mine\"\x7d\x7d,x)\n" ∧
    ExtractResult.fragment
        "let locations=(x=\x7b10:\x7bname:\"Clay Pit\"\x7d,11:\x7bname:\"Mine\"\x7d\x7d,x)\n" ≠
      ExtractResult.fragment
        "let locations=x=\x7b10:\x7bname:\"Clay Pit\"\x7d,11:\x7bname:\"Mine\"\x7d\x7d\n" := by
  refine ⟨by decide, by decide⟩

/-- C3 as amended: on the scenario text the locator's fragment spans the
whole parenthesized expression, from the opening parenthesis through the
object literal and the backreferenced `,x)`, inclusive. -/
theorem claim3_amended_span :
    extract_locations locBundleC3 =
      ExtractResult.fragment
        ("let locations=" ++
          ("(" ++ "x=" ++ "\x7b10:\x7bname:\"Clay Pit\"\x7d,11:\x7bname:\"Mine\"\x7d\x7d" ++ ",x)")
          ++ "\n") := by
  decide

/-- C8, counterexample: the enchantments pattern's body is lazy, so with two
occurrences of the terminating marker after the anchor the fragment stops at
the first one, not the last. -/
theorem claim8_counterexample :
    extract_enchantments "enchantmentsXX,e.exportsYY,e.exports" =
      ExtractResult.fragment "let enchantmentsXX\n" ∧
    ExtractResult.fragment "let enchantmentsXX\n" ≠
      ExtractResult.fragment "let enchantmentsXX,e.exportsYY\n" := by
  refine ⟨by decide, by decide⟩

/-- C8 as amended: the enchantments locator matches the fixed anchor token
and then consumes lazily up to the terminating module-export marker: in any
returned fragment the consumed span after the anchor contains no earlier
occurrence of the marker, so with several markers after the anchor the
fragment extends only to the first. -/
theorem claim8_amended_lazy_marker :
    ∀ (data frag : String), extract_enchantments data = ExtractResult.fragment frag →
    ∃ pre mid r, data.toList = pre ++ (enchAnchor ++ (mid ++ r)) ∧
      frag = "let " ++ String.mk (enchAnchor ++ mid) ++ "\n" ∧
      isEnchMarker r = true ∧
      ∀ m1 m2, mid = m1 ++ m2 → m2 ≠ [] → isEnchMarker (m2 ++ r) = false := by
  intro data frag h
  unfold extract_enchantments at h
  cases hs : searchEnch data.toList with
  | none => rw [hs] at h; exact ExtractResult.noConfusion h
  | some g0 =>
    rw [hs] at h
    obtain ⟨pre, mid, r, hl, hg, hp, hmin⟩ := searchEnch_spec data.toList g0 hs
    cases h
    exact ⟨pre, mid, r, hl, by rw [hg], hp, hmin⟩

/-- Witness for C8 as amended at a concrete input. -/
theorem claim8_amended_lazy_marker_witness :
    ∃ pre mid r,
      "enchantmentsAB,e.exportsCD,e.exports".toList = pre ++ (enchAnchor ++ (mid ++ r)) ∧
      "let enchantmentsAB\n" = "let " ++ String.mk (enchAnchor ++ mid) ++ "\n" ∧
      isEnchMarker r = true ∧
      ∀ m1 m2, mid = m1 ++ m2 → m2 ≠ [] → isEnchMarker (m2 ++ r) = false :=
  claim8_amended_lazy_marker "enchantmentsAB,e.exportsCD,e.exports" "let enchantmentsAB\n"
    (by decide)

end Extraction

namespace Extraction

/-- C7: on a bundle with valid location, enchantment and ability literals
but a malformed (anchor-less) items literal, the modelled run produces the
six JSON artifacts of the three good categories (plus their three generated
`.js` programs) and no `items.*` file — but it terminates with an uncaught
exception (`extract_items` raises on the failed anchor search), not
normally. -/
theorem claim7_run_aborts :
    main_model bundleC7 matC7 =
      (["locations.js", "locations.json", "locations.names.json",
        "enchantments.js", "enchantments.json", "enchantments.names.json",
        "abilities.js", "abilities.json", "abilities.names.json"], true) ∧
    extract_items bundleC7 = ExtractResult.raised := by
  refine ⟨by decide, by decide⟩

/-- C9: the Source Acquirer fetches an explicitly supplied URL directly with
no probing; with no URL it fetches the landing page and searches it for the
versioned bundle filename pattern, fetching the constructed location on a
match and the hard-coded default location otherwise.  The last two
conjuncts exercise the filename pattern itself. -/
theorem claim9_source_acquirer :
    (∀ net u, fetch_data net (some u) = net u) ∧
    (∀ net fname, searchMainChunk (net idlescape_site).toList = some fname →
      fetch_data net none = net (idlescape_site ++ "/static/js/" ++ String.mk fname)) ∧
    (∀ net, searchMainChunk (net idlescape_site).toList = none →
      fetch_data net none = net default_main_chunk) ∧
    searchMainChunk "<html src=\"/static/js/main.ab12cd.chunk.js\">".toList =
      some "main.ab12cd.chunk.js".toList ∧
    searchMainChunk "<html>no bundle</html>".toList = none := by
  refine ⟨fun net u => rfl, ?_, ?_, by decide, by decide⟩
  · intro net fname h
    unfold fetch_data
    rw [h]
  · intro net h
    unfold fetch_data
    rw [h]

/-- Witness for C9 at a concrete network function. -/
theorem claim9_source_acquirer_witness :
    fetch_data netSample none =
      netSample (idlescape_site ++ "/static/js/" ++ String.mk "main.ab12cd.chunk.js".toList) :=
  claim9_source_acquirer.2.1 netSample "main.ab12cd.chunk.js".toList (by decide)

end Extraction
